import Mathlib

/-!
Verification of the comment-extraction and comment-association core of the
syn-serde repository (src/comment.rs, src/comment_association.rs, src/lib.rs,
src/span.rs).

Positions are modelled as character indices into each line; the Rust code uses
byte indices, which coincide on ASCII input.  Fallible operations (the Rust
code can panic on an out-of-range slice) are modelled with Option: a `none`
result marks a panic of the Rust code.
-/

namespace SynSerde

/-- Mirror of struct SpanInfo in src/span.rs. -/
structure SpanInfo where
  start_offset : Nat
  end_offset : Nat
  start_line : Nat
  start_column : Nat
  end_line : Nat
  end_column : Nat
deriving DecidableEq, Repr

/-- Mirror of enum CommentKind in src/comment.rs. -/
inductive CommentKind where
  | line
  | block
deriving DecidableEq, Repr

/-- Mirror of struct Comment in src/comment.rs. -/
structure Comment where
  text : String
  span : SpanInfo
  kind : CommentKind
deriving DecidableEq, Repr

/-- Rust str::find for a fixed pattern: index of the leftmost occurrence. -/
def findPat (pat : List Char) : List Char → Option Nat
  | [] => if pat.isPrefixOf ([] : List Char) then some 0 else none
  | c :: rest =>
    if pat.isPrefixOf (c :: rest) then some 0
    else (findPat pat rest).map (· + 1)

/-- When findPat reports an occurrence, the whole pattern fits inside the
list there.  Stated among the definitions because the termination argument of
scanBlocks below needs it. -/
theorem findPat_some_bound (pat : List Char) :
    ∀ (l : List Char) (i : Nat), findPat pat l = some i → i + pat.length ≤ l.length := by
  intro l
  induction l with
  | nil =>
    intro i h
    simp only [findPat] at h
    split at h
    · next hp =>
      cases h
      have := List.isPrefixOf_iff_prefix.mp hp
      simpa using this.length_le
    · cases h
  | cons c rest ih =>
    intro i h
    simp only [findPat] at h
    split at h
    · next hp =>
      cases h
      have := (List.isPrefixOf_iff_prefix.mp hp).length_le
      simpa using this
    · next hp =>
      rcases Option.map_eq_some'.mp h with ⟨j, hj, rfl⟩
      have := ih j hj
      simp only [List.length_cons]
      omega

/-- Mirror of fn is_inside_string_literal in src/comment.rs: the loop body,
one step per character, carrying (index, break bound, in_string, escaped,
quote_char). -/
def insideStringGo : List Char → Nat → Nat → Bool → Bool → Option Char → Bool
  | [], _, _, inString, _, _ => inString
  | c :: rest, i, pos, inString, escaped, quoteChar =>
    if pos ≤ i then inString
    else if (c = '"' ∨ c = '\'') ∧ escaped = false then
      match quoteChar with
      | some q =>
        if c = q then insideStringGo rest (i + 1) pos false false none
        else insideStringGo rest (i + 1) pos inString false quoteChar
      | none => insideStringGo rest (i + 1) pos true false (some c)
    else if c = '\\' ∧ inString = true then
      insideStringGo rest (i + 1) pos inString (!escaped) quoteChar
    else
      insideStringGo rest (i + 1) pos inString false quoteChar

/-- Mirror of fn is_inside_string_literal in src/comment.rs. -/
def is_inside_string_literal (line : List Char) (pos : Nat) : Bool :=
  insideStringGo line 0 pos false false none

/-- Rust str::trim on a list of characters. -/
def trimChars (l : List Char) : List Char :=
  ((l.dropWhile Char.isWhitespace).reverse.dropWhile Char.isWhitespace).reverse

/-- The line-comment clause of fn extract_comments in src/comment.rs: the
first occurrence of the marker is located and, when it is not inside a string
literal, the rest of the line becomes one Line comment. -/
def lineCommentOf (lineNumber : Nat) (line : List Char) : List Comment :=
  match findPat ['/', '/'] line with
  | none => []
  | some commentStart =>
    if is_inside_string_literal line commentStart then []
    else
      [{ text := String.mk (trimChars (line.drop (commentStart + 2))),
         span := { start_offset := 0, end_offset := 0, start_line := lineNumber,
                   start_column := commentStart, end_line := lineNumber,
                   end_column := line.length },
         kind := CommentKind.line }]

/-- The Comment built in the block-comment clause of fn extract_comments:
text is the interior with delimiters stripped and trimmed. -/
def mkBlockComment (lineNumber : Nat) (line : List Char) (actualStart actualEnd : Nat) : Comment :=
  { text := String.mk (trimChars ((line.drop (actualStart + 2)).take (actualEnd - (actualStart + 2)))),
    span := { start_offset := 0, end_offset := 0, start_line := lineNumber,
              start_column := actualStart, end_line := lineNumber,
              end_column := actualEnd + 2 },
    kind := CommentKind.block }

/-- The block-comment while loop of fn extract_comments in src/comment.rs.
A `none` result marks the Rust panic: when the close marker is found at
relative offset 1 (the input "slash star slash"), the Rust code slices
line[actual_start + 2..actual_end] with start greater than end. -/
def scanBlocks (lineNumber : Nat) (line : List Char) (searchStart : Nat) : Option (List Comment) :=
  match h1 : findPat ['/', '*'] (line.drop searchStart) with
  | none => some []
  | some blockStart =>
    if is_inside_string_literal line (searchStart + blockStart) then
      scanBlocks lineNumber line (searchStart + blockStart + 1)
    else
      match h2 : findPat ['*', '/'] (line.drop (searchStart + blockStart)) with
      | none => some []
      | some blockEnd =>
        if searchStart + blockStart + 2 ≤ searchStart + blockStart + blockEnd then
          (scanBlocks lineNumber line (searchStart + blockStart + blockEnd + 2)).map
            (fun rest =>
              mkBlockComment lineNumber line (searchStart + blockStart)
                (searchStart + blockStart + blockEnd) :: rest)
        else none
termination_by line.length + 1 - searchStart
decreasing_by
  · have hb := findPat_some_bound ['/', '*'] (line.drop searchStart) blockStart h1
    simp only [List.length_drop, List.length_cons, List.length_nil] at hb
    omega
  · have hb := findPat_some_bound ['*', '/'] (line.drop (searchStart + blockStart)) blockEnd h2
    simp only [List.length_drop, List.length_cons, List.length_nil] at hb
    omega

/-- Fueled twin of scanBlocks, structurally recursive so that the kernel can
evaluate it; scanBlocksF_le_eq shows it agrees with scanBlocks whenever the
fuel covers the line length. -/
def scanBlocksF : Nat → Nat → List Char → Nat → Option (List Comment)
  | 0, _, _, _ => some []
  | fuel + 1, lineNumber, line, searchStart =>
    match findPat ['/', '*'] (line.drop searchStart) with
    | none => some []
    | some blockStart =>
      if is_inside_string_literal line (searchStart + blockStart) then
        scanBlocksF fuel lineNumber line (searchStart + blockStart + 1)
      else
        match findPat ['*', '/'] (line.drop (searchStart + blockStart)) with
        | none => some []
        | some blockEnd =>
          if searchStart + blockStart + 2 ≤ searchStart + blockStart + blockEnd then
            (scanBlocksF fuel lineNumber line (searchStart + blockStart + blockEnd + 2)).map
              (fun rest =>
                mkBlockComment lineNumber line (searchStart + blockStart)
                  (searchStart + blockStart + blockEnd) :: rest)
          else none

/-- Rust str::lines strips one trailing carriage return from a chunk that was
terminated by a newline. -/
def stripTrailingCR (l : List Char) : List Char :=
  match l.getLast? with
  | some c => if c = '\r' then l.dropLast else l
  | none => l

/-- Accumulator pass for rustLines. -/
def rustLinesAux : List Char → List Char → List (List Char)
  | [], acc => if acc.isEmpty then [] else [acc.reverse]
  | c :: rest, acc =>
    if c = '\n' then stripTrailingCR acc.reverse :: rustLinesAux rest []
    else rustLinesAux rest (c :: acc)

/-- Rust str::lines: split at newline or carriage-return/newline; the final
line ending is optional and yields no empty final line. -/
def rustLines (s : List Char) : List (List Char) := rustLinesAux s []

/-- The per-line body of fn extract_comments in src/comment.rs: the Line
comment (if any) is pushed first, then the Block comments found by the
while loop, then the comments of the remaining lines. -/
def extractLines : List (List Char) → Nat → Option (List Comment)
  | [], _ => some []
  | l :: ls, idx =>
    match scanBlocks (idx + 1) l 0 with
    | none => none
    | some blocks =>
      match extractLines ls (idx + 1) with
      | none => none
      | some rest => some (lineCommentOf (idx + 1) l ++ blocks ++ rest)

/-- Mirror of fn extract_comments in src/comment.rs.  A `none` result marks a
panic of the Rust code. -/
def extract_comments (source : String) : Option (List Comment) :=
  extractLines (rustLines source.data) 0

/-- Kernel-evaluable twin of extractLines, using the fueled block scanner. -/
def extractLinesF : List (List Char) → Nat → Option (List Comment)
  | [], _ => some []
  | l :: ls, idx =>
    match scanBlocksF (l.length + 1) (idx + 1) l 0 with
    | none => none
    | some blocks =>
      match extractLinesF ls (idx + 1) with
      | none => none
      | some rest => some (lineCommentOf (idx + 1) l ++ blocks ++ rest)

/-- Every occurrence of the line-comment marker in the line lies inside a
live quoted region according to the quote tracker. -/
def allLineMarkersQuoted (line : List Char) : Bool :=
  (List.range line.length).all
    (fun p => !(List.isPrefixOf ['/', '/'] (line.drop p)) || is_inside_string_literal line p)

/-- Rust String::ends_with("_block") from src/comment_association.rs. -/
def endsWithBlock (node_id : String) : Bool :=
  "_block".data.isSuffixOf node_id.data

/-- Mirror of fn is_comment_strictly_inside_node in src/comment_association.rs. -/
def is_comment_strictly_inside_node (comment : Comment) (node_span : SpanInfo) : Bool :=
  if node_span.start_line < comment.span.start_line ∧ comment.span.start_line < node_span.end_line then
    true
  else if comment.span.start_line = node_span.start_line ∧ node_span.start_column < comment.span.start_column then
    true
  else if comment.span.start_line = node_span.end_line ∧ comment.span.start_column < node_span.end_column then
    true
  else
    false

/-- Mirror of fn is_comment_on_function_declaration_line in
src/comment_association.rs.  The Rust code first scans all_spans for the first
entry whose identifier ends in _block and whose start line is at least the
declaration's start line; the same-line case returns before that lookup is
consulted, so the lookup is written after the same-line test here. -/
def is_comment_on_function_declaration_line (comment : Comment) (fn_span : SpanInfo)
    (all_spans : List (String × SpanInfo)) : Bool :=
  if comment.span.start_line = fn_span.start_line then
    decide (fn_span.end_column < comment.span.start_column)
  else
    match all_spans.find? (fun p => endsWithBlock p.1 && decide (fn_span.start_line ≤ p.2.start_line)) with
    | some p =>
      decide (fn_span.start_line < comment.span.start_line ∧ comment.span.start_line < p.2.start_line)
    | none => false

/-- Mirror of fn find_best_node_for_comment in src/comment_association.rs:
block nodes are scanned first, then declaration nodes. -/
def find_best_node_for_comment (comment : Comment)
    (node_spans : List (String × SpanInfo)) : Option String :=
  match node_spans.find? (fun p => endsWithBlock p.1 && is_comment_strictly_inside_node comment p.2) with
  | some p => some p.1
  | none =>
    match node_spans.find? (fun p => !endsWithBlock p.1 && is_comment_on_function_declaration_line comment p.2 node_spans) with
    | some p => some p.1
    | none => none

/-- HashMap entry(node_id).or_default().push(comment): append the comment to
the list stored at the key, creating the entry when absent. -/
def insertPush (m : List (String × List Comment)) (key : String) (c : Comment) :
    List (String × List Comment) :=
  match m with
  | [] => [(key, [c])]
  | (k, l) :: rest => if k = key then (k, l ++ [c]) :: rest else (k, l) :: insertPush rest key c

/-- HashMap::get on the association map. -/
def mapGet (m : List (String × List Comment)) (key : String) : Option (List Comment) :=
  (m.find? (fun p => p.1 = key)).map (fun p => p.2)

/-- Mirror of fn associate_comments_with_nodes in src/comment_association.rs;
the HashMap is modelled as a list of entries with distinct keys, read only
through mapGet. -/
def associate_comments_with_nodes (comments : List Comment)
    (node_spans : List (String × SpanInfo)) : List (String × List Comment) :=
  comments.foldl
    (fun m comment =>
      match find_best_node_for_comment comment node_spans with
      | some node_id => insertPush m node_id comment
      | none => m)
    []

/-- Modelled from the spec: struct Block of the generated tree
(src/gen/ast_struct.rs is absent from the sources); the span and comments
fields are the ones read and written by src/lib.rs. -/
structure Block where
  span : Option SpanInfo
  comments : List Comment
deriving DecidableEq, Repr

/-- Modelled from the spec: enum Item of the generated tree
(src/gen/ast_struct.rs is absent from the sources).  Variants and their
span / comments / block capabilities are exactly the ones the match arms of
collect_item_spans, apply_comments_to_item and apply_comment_associations in
src/lib.rs read and write: Struct, Mod, TraitAlias, Macro, ExternCrate and
Verbatim carry no comments field; Struct, Union, Mod, ForeignMod, TraitAlias,
Macro, ExternCrate and Verbatim expose no span; only Fn has a body block. -/
inductive Item where
  | Fn (span : Option SpanInfo) (comments : List Comment) (block : Block)
  | Enum (span : Option SpanInfo) (comments : List Comment)
  | Struct
  | Trait (span : Option SpanInfo) (comments : List Comment)
  | Impl (span : Option SpanInfo) (comments : List Comment)
  | Use (span : Option SpanInfo) (comments : List Comment)
  | Const (span : Option SpanInfo) (comments : List Comment)
  | Static (span : Option SpanInfo) (comments : List Comment)
  | TypeItem (span : Option SpanInfo) (comments : List Comment)
  | Union (comments : List Comment)
  | Mod
  | ForeignMod (comments : List Comment)
  | TraitAlias
  | MacItem
  | ExternCrate
  | Verbatim
deriving DecidableEq, Repr

/-- Modelled from the spec: struct File of the generated tree; the items list
is the only field src/lib.rs walks, and the repository's own test asserts the
file has no top-level comments list. -/
structure File where
  items : List Item
deriving DecidableEq, Repr

/-- Mirror of fn collect_item_spans in src/lib.rs: one entry for the item's
span when present, and for a Fn item one extra entry for the block's span,
keyed with the _block suffix. -/
def collect_item_spans (item : Item) (item_id : String) : List (String × SpanInfo) :=
  match item with
  | Item.Fn span _ block =>
    (match span with | some s => [(item_id, s)] | none => []) ++
    (match block.span with | some bs => [(item_id ++ "_block", bs)] | none => [])
  | Item.Enum span _ => (match span with | some s => [(item_id, s)] | none => [])
  | Item.Struct => []
  | Item.Trait span _ => (match span with | some s => [(item_id, s)] | none => [])
  | Item.Impl span _ => (match span with | some s => [(item_id, s)] | none => [])
  | Item.Use span _ => (match span with | some s => [(item_id, s)] | none => [])
  | Item.Const span _ => (match span with | some s => [(item_id, s)] | none => [])
  | Item.Static span _ => (match span with | some s => [(item_id, s)] | none => [])
  | Item.TypeItem span _ => (match span with | some s => [(item_id, s)] | none => [])
  | Item.Union _ => []
  | Item.Mod => []
  | Item.ForeignMod _ => []
  | Item.TraitAlias => []
  | Item.MacItem => []
  | Item.ExternCrate => []
  | Item.Verbatim => []

/-- The span-collection loop of fn associate_comments_with_file_nodes in
src/lib.rs: items are keyed item_N in document order. -/
def collectFileSpans (file : File) : List (String × SpanInfo) :=
  file.items.enum.flatMap (fun p => collect_item_spans p.2 ("item_" ++ toString p.1))

/-- Mirror of fn apply_comments_to_item in src/lib.rs: variants without a
comments field silently drop the comments. -/
def apply_comments_to_item (item : Item) (comments : List Comment) : Item :=
  match item with
  | Item.Fn span _ block => Item.Fn span comments block
  | Item.Enum span _ => Item.Enum span comments
  | Item.Struct => Item.Struct
  | Item.Trait span _ => Item.Trait span comments
  | Item.Impl span _ => Item.Impl span comments
  | Item.Use span _ => Item.Use span comments
  | Item.Const span _ => Item.Const span comments
  | Item.Static span _ => Item.Static span comments
  | Item.TypeItem span _ => Item.TypeItem span comments
  | Item.Union _ => Item.Union comments
  | Item.Mod => Item.Mod
  | Item.ForeignMod _ => Item.ForeignMod comments
  | Item.TraitAlias => Item.TraitAlias
  | Item.MacItem => Item.MacItem
  | Item.ExternCrate => Item.ExternCrate
  | Item.Verbatim => Item.Verbatim

/-- The Fn-block clause of fn apply_comment_associations in src/lib.rs. -/
def applyBlockComments (associations : List (String × List Comment)) (item_id : String)
    (item : Item) : Item :=
  match item with
  | Item.Fn span comments block =>
    match mapGet associations (item_id ++ "_block") with
    | some cs => Item.Fn span comments { block with comments := cs }
    | none => Item.Fn span comments block
  | other => other

/-- The per-item body of fn apply_comment_associations in src/lib.rs: first
the item's own comments from the map, then the block comments for a Fn. -/
def applyToIndexedItem (associations : List (String × List Comment)) (i : Nat)
    (item : Item) : Item :=
  applyBlockComments associations ("item_" ++ toString i)
    (match mapGet associations ("item_" ++ toString i) with
     | some cs => apply_comments_to_item item cs
     | none => item)

/-- Mirror of fn apply_comment_associations in src/lib.rs. -/
def apply_comment_associations (file : File) (associations : List (String × List Comment)) : File :=
  { items := file.items.enum.map (fun p => applyToIndexedItem associations p.1 p.2) }

/-- All comments held anywhere in an item: its own list plus, for a Fn, the
body block's list. -/
def itemComments : Item → List Comment
  | Item.Fn _ cs block => cs ++ block.comments
  | Item.Enum _ cs => cs
  | Item.Struct => []
  | Item.Trait _ cs => cs
  | Item.Impl _ cs => cs
  | Item.Use _ cs => cs
  | Item.Const _ cs => cs
  | Item.Static _ cs => cs
  | Item.TypeItem _ cs => cs
  | Item.Union cs => cs
  | Item.Mod => []
  | Item.ForeignMod cs => cs
  | Item.TraitAlias => []
  | Item.MacItem => []
  | Item.ExternCrate => []
  | Item.Verbatim => []

/-- All comments held anywhere in a file; under the code there is no further
document-root comment list. -/
def commentsInFile (file : File) : List Comment :=
  file.items.flatMap itemComments

theorem findPat_isPrefix (pat : List Char) :
    ∀ (l : List Char) (i : Nat), findPat pat l = some i → pat.isPrefixOf (l.drop i) = true := by
  intro l
  induction l with
  | nil =>
    intro i h
    simp only [findPat] at h
    split at h
    · next hp => cases h; simpa using hp
    · cases h
  | cons c rest ih =>
    intro i h
    simp only [findPat] at h
    split at h
    · next hp => cases h; simpa using hp
    · next hp =>
      rcases Option.map_eq_some'.mp h with ⟨j, hj, rfl⟩
      simpa using ih j hj

theorem findPat_none (pat : List Char) :
    ∀ (l : List Char), findPat pat l = none → ∀ k, pat.isPrefixOf (l.drop k) = false := by
  intro l
  induction l with
  | nil =>
    intro h k
    simp only [findPat] at h
    split at h
    · cases h
    · next hp =>
      simp only [List.drop_nil]
      exact Bool.eq_false_iff.mpr hp
  | cons c rest ih =>
    intro h k
    simp only [findPat] at h
    split at h
    · cases h
    · next hp =>
      cases k with
      | zero =>
        simp only [List.drop_zero]
        exact Bool.eq_false_iff.mpr hp
      | succ k =>
        have : findPat pat rest = none := by
          cases hr : findPat pat rest with
          | none => rfl
          | some j => rw [hr] at h; cases h
        simpa using ih this k

theorem findPat_none_mono (pat : List Char) (l : List Char) (s t : Nat)
    (h : findPat pat (l.drop s) = none) (hst : s ≤ t) : findPat pat (l.drop t) = none := by
  cases ht : findPat pat (l.drop t) with
  | none => rfl
  | some i =>
    exfalso
    have hpre := findPat_isPrefix pat (l.drop t) i ht
    have hsplit : (l.drop t).drop i = l.drop (s + ((t - s) + i)) := by
      rw [List.drop_drop]
      congr 1
      omega
    rw [hsplit] at hpre
    have hnone := findPat_none pat (l.drop s) h ((t - s) + i)
    rw [List.drop_drop] at hnone
    simp only [hnone] at hpre
    cases hpre

theorem scanBlocksF_le_eq (fuel lineNumber : Nat) (line : List Char) :
    ∀ searchStart, line.length + 1 ≤ fuel + searchStart →
      scanBlocksF fuel lineNumber line searchStart = scanBlocks lineNumber line searchStart := by
  induction fuel with
  | zero =>
    intro s hs
    have hd : line.drop s = [] := by
      apply List.drop_eq_nil_of_le
      omega
    rw [scanBlocks.eq_def, hd]
    rfl
  | succ fuel ih =>
    intro s hs
    rw [scanBlocks.eq_def]
    simp only [scanBlocksF]
    cases h1 : findPat ['/', '*'] (line.drop s) with
    | none => rfl
    | some blockStart =>
      have hb := findPat_some_bound ['/', '*'] (line.drop s) blockStart h1
      simp only [List.length_drop, List.length_cons, List.length_nil] at hb
      by_cases hq : is_inside_string_literal line (s + blockStart) = true
      · simp only [hq, if_true]
        exact ih (s + blockStart + 1) (by omega)
      · simp only [Bool.not_eq_true] at hq
        simp only [hq, Bool.false_eq_true, if_false]
        cases h2 : findPat ['*', '/'] (line.drop (s + blockStart)) with
        | none => rfl
        | some blockEnd =>
          have hb2 := findPat_some_bound ['*', '/'] (line.drop (s + blockStart)) blockEnd h2
          simp only [List.length_drop, List.length_cons, List.length_nil] at hb2
          by_cases hle : s + blockStart + 2 ≤ s + blockStart + blockEnd
          · simp only [hle, if_true]
            rw [ih (s + blockStart + blockEnd + 2) (by omega)]
          · simp only [hle, if_false]

theorem extractLines_eq_F : ∀ (ls : List (List Char)) (idx : Nat),
    extractLines ls idx = extractLinesF ls idx := by
  intro ls
  induction ls with
  | nil => intro idx; rfl
  | cons l ls ih =>
    intro idx
    simp only [extractLines, extractLinesF,
      scanBlocksF_le_eq (l.length + 1) (idx + 1) l 0 (by omega), ih]

/-- extract_comments evaluated through the structurally recursive twins; this
lets concrete runs be checked by the kernel. -/
theorem extract_comments_eval (source : String) :
    extract_comments source = extractLinesF (rustLines source.data) 0 := by
  rw [extract_comments, extractLines_eq_F]

/-- Every comment produced by the fueled block scanner is a Block comment on
the scanned line with zero offsets and a strictly increasing column span. -/
theorem scanBlocksF_mem (fuel lineNumber : Nat) (line : List Char) :
    ∀ (searchStart : Nat) (bs : List Comment), scanBlocksF fuel lineNumber line searchStart = some bs →
      ∀ c ∈ bs, c.kind = CommentKind.block ∧ c.span.start_offset = 0 ∧ c.span.end_offset = 0 ∧
        c.span.start_line = lineNumber ∧ c.span.end_line = lineNumber ∧
        c.span.start_column < c.span.end_column := by
  induction fuel with
  | zero =>
    intro s bs h c hc
    simp only [scanBlocksF] at h
    cases h
    cases hc
  | succ fuel ih =>
    intro s bs h c hc
    simp only [scanBlocksF] at h
    split at h
    · cases h; cases hc
    · split at h
      · exact ih _ bs h c hc
      · split at h
        · cases h; cases hc
        · split at h
          · rcases Option.map_eq_some'.mp h with ⟨rest, hrest, rfl⟩
            rcases List.mem_cons.mp hc with hhead | htail
            · subst hhead
              refine ⟨rfl, rfl, rfl, rfl, rfl, ?_⟩
              simp only [mkBlockComment]
              omega
            · exact ih _ rest hrest c htail
          · cases h

/-- When the close marker occurs nowhere at or after the search position, the
fueled block scanner produces no comment. -/
theorem scanBlocksF_no_close (fuel lineNumber : Nat) (line : List Char) :
    ∀ searchStart, findPat ['*', '/'] (line.drop searchStart) = none →
      scanBlocksF fuel lineNumber line searchStart = some [] := by
  induction fuel with
  | zero => intro s _; rfl
  | succ fuel ih =>
    intro s hnc
    simp only [scanBlocksF]
    cases h1 : findPat ['/', '*'] (line.drop s) with
    | none => rfl
    | some blockStart =>
      by_cases hq : is_inside_string_literal line (s + blockStart) = true
      · simp only [hq, if_true]
        exact ih (s + blockStart + 1) (findPat_none_mono _ line s _ hnc (by omega))
      · simp only [Bool.not_eq_true] at hq
        simp only [hq, Bool.false_eq_true, if_false]
        rw [findPat_none_mono _ line s (s + blockStart) hnc (by omega)]

/-- The claim-facing form: the while loop of extract_comments produces no
comment when no close marker exists at or after the search position. -/
theorem scanBlocks_no_close (lineNumber : Nat) (line : List Char) (searchStart : Nat)
    (h : findPat ['*', '/'] (line.drop searchStart) = none) :
    scanBlocks lineNumber line searchStart = some [] := by
  rw [← scanBlocksF_le_eq (line.length + 1) lineNumber line searchStart (by omega)]
  exact scanBlocksF_no_close (line.length + 1) lineNumber line searchStart h

/-- The Line comment produced for a line, when there is one, is a Line-kind
comment on that line with zero offsets and a strictly increasing column span. -/
theorem lineCommentOf_mem (lineNumber : Nat) (line : List Char) :
    ∀ c ∈ lineCommentOf lineNumber line,
      c.kind = CommentKind.line ∧ c.span.start_offset = 0 ∧ c.span.end_offset = 0 ∧
        c.span.start_line = lineNumber ∧ c.span.end_line = lineNumber ∧
        c.span.start_column < c.span.end_column := by
  intro c hc
  simp only [lineCommentOf] at hc
  split at hc
  · cases hc
  · next commentStart hfp =>
    have hb := findPat_some_bound ['/', '/'] line commentStart hfp
    simp only [List.length_cons, List.length_nil] at hb
    split at hc
    · cases hc
    · rcases List.mem_singleton.mp hc with rfl
      refine ⟨rfl, rfl, rfl, rfl, rfl, ?_⟩
      simp only
      omega

/-- Every comment produced for the lines starting at index idx is well formed
and lies on a line numbered at least idx plus one. -/
theorem extractLinesF_mem : ∀ (ls : List (List Char)) (idx : Nat) (cs : List Comment),
    extractLinesF ls idx = some cs →
      ∀ c ∈ cs, c.span.start_offset = 0 ∧ c.span.end_offset = 0 ∧
        c.span.start_line = c.span.end_line ∧ c.span.start_column < c.span.end_column ∧
        idx + 1 ≤ c.span.start_line := by
  intro ls
  induction ls with
  | nil =>
    intro idx cs h c hc
    cases h
    cases hc
  | cons l ls ih =>
    intro idx cs h c hc
    simp only [extractLinesF] at h
    cases hsb : scanBlocksF (l.length + 1) (idx + 1) l 0 with
    | none => rw [hsb] at h; cases h
    | some blocks =>
      rw [hsb] at h
      cases hrest : extractLinesF ls (idx + 1) with
      | none => rw [hrest] at h; cases h
      | some rest =>
        rw [hrest] at h
        cases h
        rcases List.mem_append.mp hc with hc1 | hc2
        · rcases List.mem_append.mp hc1 with hl | hb
          · obtain ⟨_, ho1, ho2, hsl, hel, hcol⟩ := lineCommentOf_mem (idx + 1) l c hl
            exact ⟨ho1, ho2, by omega, hcol, by omega⟩
          · obtain ⟨_, ho1, ho2, hsl, hel, hcol⟩ :=
              scanBlocksF_mem (l.length + 1) (idx + 1) l 0 blocks hsb c hb
            exact ⟨ho1, ho2, by omega, hcol, by omega⟩
        · obtain ⟨ho1, ho2, hse, hcol, hge⟩ := ih (idx + 1) rest hrest c hc2
          exact ⟨ho1, ho2, hse, hcol, by omega⟩

/-- Comments are produced grouped by line: the output of extractLinesF is
sorted by weakly increasing start line. -/
theorem extractLinesF_sorted : ∀ (ls : List (List Char)) (idx : Nat) (cs : List Comment),
    extractLinesF ls idx = some cs →
      cs.Pairwise (fun a b => a.span.start_line ≤ b.span.start_line) := by
  intro ls
  induction ls with
  | nil =>
    intro idx cs h
    cases h
    exact List.Pairwise.nil
  | cons l ls ih =>
    intro idx cs h
    simp only [extractLinesF] at h
    cases hsb : scanBlocksF (l.length + 1) (idx + 1) l 0 with
    | none => rw [hsb] at h; cases h
    | some blocks =>
      rw [hsb] at h
      cases hrest : extractLinesF ls (idx + 1) with
      | none => rw [hrest] at h; cases h
      | some rest =>
        rw [hrest] at h
        cases h
        have hhead : ∀ c ∈ lineCommentOf (idx + 1) l ++ blocks, c.span.start_line = idx + 1 := by
          intro c hc
          rcases List.mem_append.mp hc with hl | hb
          · exact (lineCommentOf_mem (idx + 1) l c hl).2.2.2.1
          · exact (scanBlocksF_mem (l.length + 1) (idx + 1) l 0 blocks hsb c hb).2.2.2.1
        have hrestge : ∀ c ∈ rest, idx + 2 ≤ c.span.start_line := by
          intro c hc
          have := (extractLinesF_mem ls (idx + 1) rest hrest c hc).2.2.2.2
          omega
        apply List.pairwise_append.mpr
        refine ⟨?_, ih (idx + 1) rest hrest, ?_⟩
        · apply List.pairwise_of_forall_mem_list
          intro a ha b hb
          rw [hhead a ha, hhead b hb]
        · intro a ha b hb
          rw [hhead a ha]
          have := hrestge b hb
          omega

theorem mapGet_insertPush_self (m : List (String × List Comment)) (key : String) (c : Comment) :
    mapGet (insertPush m key c) key = some ((mapGet m key).getD [] ++ [c]) := by
  induction m with
  | nil => simp [insertPush, mapGet]
  | cons p rest ih =>
    obtain ⟨k, l⟩ := p
    by_cases hk : k = key
    · subst hk
      simp [insertPush, mapGet]
    · simp only [insertPush, hk, if_false]
      simp only [mapGet, List.find?] at ih ⊢
      have : (decide (k = key)) = false := by simp [hk]
      rw [this]
      simp only [Bool.false_eq_true, if_false]
      exact ih

theorem mapGet_insertPush_ne (m : List (String × List Comment)) (key other : String) (c : Comment)
    (h : other ≠ key) : mapGet (insertPush m key c) other = mapGet m other := by
  have hko : (decide (key = other)) = false := by
    simp only [decide_eq_false_iff_not]
    exact fun e => h e.symm
  induction m with
  | nil => simp [insertPush, mapGet, List.find?, hko]
  | cons p rest ih =>
    obtain ⟨k, l⟩ := p
    by_cases hk : k = key
    · subst hk
      simp [insertPush, mapGet, List.find?, hko]
    · simp only [insertPush, hk, if_false]
      by_cases hk2 : k = other
      · subst hk2
        simp [mapGet, List.find?]
      · have hd : (decide (k = other)) = false := by simp [hk2]
        simp only [mapGet, List.find?, hd, Bool.false_eq_true, if_false] at ih ⊢
        exact ih

/-- Invariant of the association fold: every comment stored under a key was
claimed for exactly that key by find_best_node_for_comment. -/
theorem associate_mem_claimed (node_spans : List (String × SpanInfo)) (comments : List Comment) :
    ∀ (key : String) (l : List Comment),
      mapGet (associate_comments_with_nodes comments node_spans) key = some l →
      ∀ c ∈ l, find_best_node_for_comment c node_spans = some key := by
  have main : ∀ (cs : List Comment) (m : List (String × List Comment)),
      (∀ (key : String) (l : List Comment), mapGet m key = some l →
        ∀ c ∈ l, find_best_node_for_comment c node_spans = some key) →
      ∀ (key : String) (l : List Comment),
        mapGet (cs.foldl
          (fun m comment =>
            match find_best_node_for_comment comment node_spans with
            | some node_id => insertPush m node_id comment
            | none => m) m) key = some l →
        ∀ c ∈ l, find_best_node_for_comment c node_spans = some key := by
    intro cs
    induction cs with
    | nil => intro m hm key l hget; exact hm key l hget
    | cons c0 cs ih =>
      intro m hm key l hget
      simp only [List.foldl_cons] at hget
      cases hfb : find_best_node_for_comment c0 node_spans with
      | none =>
        rw [hfb] at hget
        exact ih m hm key l hget
      | some node_id =>
        rw [hfb] at hget
        refine ih (insertPush m node_id c0) ?_ key l hget
        intro key' l' hget' c hc
        by_cases hk : key' = node_id
        · subst hk
          rw [mapGet_insertPush_self] at hget'
          cases hget'
          rcases List.mem_append.mp hc with hcm | hcnew
          · cases hold : mapGet m key' with
            | none => rw [hold] at hcm; cases hcm
            | some lold => rw [hold] at hcm; exact hm key' lold hold c hcm
          · rcases List.mem_singleton.mp hcnew with rfl
            exact hfb
        · rw [mapGet_insertPush_ne m node_id key' c0 hk] at hget'
          exact hm key' l' hget' c hc
  intro key l hget
  refine main comments [] ?_ key l hget
  intro key' l' hget'
  simp [mapGet] at hget'

/-- Comments surviving apply_comments_to_item come from the supplied list or
were already held by the item in its block. -/
theorem apply_comments_to_item_mem (item : Item) (cs : List Comment) (c : Comment)
    (h : c ∈ itemComments (apply_comments_to_item item cs)) :
    c ∈ cs ∨ c ∈ itemComments item := by
  cases item <;> simp only [apply_comments_to_item, itemComments] at h ⊢ <;>
    first
      | exact Or.inl h
      | cases h
      | rcases List.mem_append.mp h with h1 | h2
  · exact Or.inl h1
  · exact Or.inr (List.mem_append.mpr (Or.inr h2))

theorem applyBlockComments_mem (associations : List (String × List Comment)) (item_id : String)
    (item : Item) (c : Comment) (h : c ∈ itemComments (applyBlockComments associations item_id item)) :
    c ∈ itemComments item ∨
      ∃ key l, mapGet associations key = some l ∧ c ∈ l := by
  cases item <;> simp only [applyBlockComments, itemComments] at h ⊢
  case Fn span comments block =>
    cases hget : mapGet associations (item_id ++ "_block") with
    | none =>
      rw [hget] at h
      exact Or.inl h
    | some cs =>
      rw [hget] at h
      simp only [itemComments] at h
      rcases List.mem_append.mp h with h1 | h2
      · exact Or.inl (List.mem_append.mpr (Or.inl h1))
      · exact Or.inr ⟨item_id ++ "_block", cs, hget, h2⟩
  all_goals exact Or.inl h

theorem applyToIndexedItem_mem (associations : List (String × List Comment)) (i : Nat)
    (item : Item) (c : Comment)
    (h : c ∈ itemComments (applyToIndexedItem associations i item)) :
    c ∈ itemComments item ∨
      ∃ key l, mapGet associations key = some l ∧ c ∈ l := by
  simp only [applyToIndexedItem] at h
  rcases applyBlockComments_mem associations ("item_" ++ toString i) _ c h with h1 | h2
  · cases hget : mapGet associations ("item_" ++ toString i) with
    | none =>
      rw [hget] at h1
      exact Or.inl h1
    | some cs =>
      rw [hget] at h1
      rcases apply_comments_to_item_mem item cs c h1 with hin | horig
      · exact Or.inr ⟨"item_" ++ toString i, cs, hget, hin⟩
      · exact Or.inl horig
  · exact Or.inr h2

theorem mem_of_mem_enumFrom {α : Type} : ∀ (l : List α) (n : Nat) (p : Nat × α),
    p ∈ l.enumFrom n → p.2 ∈ l := by
  intro l
  induction l with
  | nil => intro n p h; cases h
  | cons a rest ih =>
    intro n p h
    rcases List.mem_cons.mp h with rfl | htail
    · exact List.mem_cons_self a rest
    · exact List.mem_cons.mpr (Or.inr (ih (n + 1) p htail))

/-- Every comment in the applied file was already in the file or is stored in
some entry of the association map: application introduces nothing else and
keeps no residual list. -/
theorem apply_comment_associations_mem (file : File) (associations : List (String × List Comment))
    (c : Comment) (h : c ∈ commentsInFile (apply_comment_associations file associations)) :
    c ∈ commentsInFile file ∨ ∃ key l, mapGet associations key = some l ∧ c ∈ l := by
  simp only [commentsInFile, apply_comment_associations, List.mem_flatMap, List.mem_map] at h
  rcases h with ⟨item', ⟨⟨p, hpmem, rfl⟩, hcit⟩⟩
  rcases applyToIndexedItem_mem associations p.1 p.2 c hcit with h1 | h2
  · left
    simp only [commentsInFile, List.mem_flatMap]
    refine ⟨p.2, ?_, h1⟩
    exact mem_of_mem_enumFrom file.items 0 p hpmem
  · exact Or.inr h2

/-- C3: the claim says extract_comments returns normally on every input,
including a line containing the overlapping marker sequence slash-star-slash.
The code does not: on that input the close-marker search inside the slice
starting at the open marker finds the overlapping close at relative offset 1,
and the text slice line[actual_start + 2..actual_end] has start 2 and end 1,
which panics in Rust.  The model therefore returns none (panic) here. -/
theorem C3_panic_on_overlapping_close : extract_comments "/*/" = none := by
  rw [extract_comments_eval]
  decide

/-- C6 counterexample: the first line-comment marker of the line lies inside
a quoted string (position 9), a later marker (position 15) lies outside every
quoted region, yet extract_comments produces no comment at all: the quote
check is applied only to the first marker position, not independently at
every candidate position as the claim states. -/
theorem C6_counterexample :
    extract_comments "let s = \"//x\"; // real" = some [] ∧
    is_inside_string_literal "let s = \"//x\"; // real".data 15 = false ∧
    List.isPrefixOf ['/', '/'] ("let s = \"//x\"; // real".data.drop 15) = true := by
  refine ⟨?_, by decide, by decide⟩
  rw [extract_comments_eval]
  decide

/-- C6 amended: the quote-state check is applied only at the first
line-comment marker on a line; when that first occurrence lies inside a live
quoted region, no Line comment is produced for the line at all, even if a
later marker lies outside every quoted region. -/
theorem C6_first_marker_only (lineNumber : Nat) (line : List Char) (p : Nat)
    (hfind : findPat ['/', '/'] line = some p)
    (hq : is_inside_string_literal line p = true) :
    lineCommentOf lineNumber line = [] := by
  simp [lineCommentOf, hfind, hq]

theorem C6_witness : lineCommentOf 1 "let s = \"//x\"; // real".data = [] :=
  C6_first_marker_only 1 "let s = \"//x\"; // real".data 9 (by decide) (by decide)

/-- C7 counterexample: on a line holding both a block comment and a later
line comment, the line comment is pushed first although its column is larger,
so the output is not sorted by ascending (start_line, start_column). -/
theorem C7_counterexample :
    extract_comments "/* a */ // c" =
      some [⟨"c", ⟨0, 0, 1, 8, 1, 12⟩, CommentKind.line⟩,
            ⟨"a", ⟨0, 0, 1, 0, 1, 7⟩, CommentKind.block⟩] ∧
    ¬ List.Pairwise
        (fun a b => a.span.start_line < b.span.start_line ∨
          (a.span.start_line = b.span.start_line ∧ a.span.start_column ≤ b.span.start_column))
        [(⟨"c", ⟨0, 0, 1, 8, 1, 12⟩, CommentKind.line⟩ : Comment),
         ⟨"a", ⟨0, 0, 1, 0, 1, 7⟩, CommentKind.block⟩] := by
  refine ⟨?_, by decide⟩
  rw [extract_comments_eval]
  decide

/-- C7 amended: extract_comments is a pure function, so two calls on the same
string yield identical sequences, and whenever it returns a list that list is
sorted by weakly ascending start line; the within-line ordering by column
fails (the line comment precedes the block comments of its line regardless of
column), as the counterexample shows. -/
theorem C7_deterministic_line_sorted (source : String) :
    extract_comments source = extract_comments source ∧
    ∀ cs, extract_comments source = some cs →
      cs.Pairwise (fun a b => a.span.start_line ≤ b.span.start_line) := by
  refine ⟨rfl, ?_⟩
  intro cs h
  rw [extract_comments_eval] at h
  exact extractLinesF_sorted (rustLines source.data) 0 cs h

theorem C7_witness :
    List.Pairwise
      (fun (a : Comment) (b : Comment) => a.span.start_line ≤ b.span.start_line)
      [⟨"a", ⟨0, 0, 1, 2, 1, 6⟩, CommentKind.line⟩,
       ⟨"b", ⟨0, 0, 2, 2, 2, 6⟩, CommentKind.line⟩] := by
  refine (C7_deterministic_line_sorted "x // a\ny // b").2
    [⟨"a", ⟨0, 0, 1, 2, 1, 6⟩, CommentKind.line⟩,
     ⟨"b", ⟨0, 0, 2, 2, 2, 6⟩, CommentKind.line⟩] ?_
  rw [extract_comments_eval]
  decide

/-- C8: a block-open marker with a same-line close marker yields one Block
comment with the delimiters stripped and the interior trimmed; scanning
resumes after the consumed close marker, so the line with the two comments
a and b yields both, with their column spans; and when no close marker exists
at or after the scan position the scan yields no comment at all. -/
theorem C8_same_line_block_comments :
    extract_comments "/* a */ /* b */ code" =
      some [⟨"a", ⟨0, 0, 1, 0, 1, 7⟩, CommentKind.block⟩,
            ⟨"b", ⟨0, 0, 1, 8, 1, 15⟩, CommentKind.block⟩] ∧
    ∀ (lineNumber : Nat) (line : List Char) (searchStart : Nat),
      findPat ['*', '/'] (line.drop searchStart) = none →
      scanBlocks lineNumber line searchStart = some [] := by
  refine ⟨?_, scanBlocks_no_close⟩
  rw [extract_comments_eval]
  decide

theorem C8_witness : scanBlocks 1 "code /* open".data 0 = some [] :=
  C8_same_line_block_comments.2 1 "code /* open".data 0 (by decide)

/-- C9 counterexample: on a line whose every line-comment marker occurrence
lies inside a properly quoted string, extraction can still produce a comment:
a block comment outside the quotes is extracted, so the line does not yield
zero comments as the claim states. -/
theorem C9_counterexample :
    allLineMarkersQuoted "let s = \"// x\"; /* b */".data = true ∧
    extract_comments "let s = \"// x\"; /* b */" =
      some [⟨"b", ⟨0, 0, 1, 16, 1, 23⟩, CommentKind.block⟩] := by
  refine ⟨by decide, ?_⟩
  rw [extract_comments_eval]
  decide

/-- C9 amended: a line on which every occurrence of the line-comment marker
lies inside a live quoted region yields zero Line comments (block comments
outside the quotes may still be extracted); in particular the quoted-marker
input from the spec yields an empty comment list. -/
theorem C9_quoted_markers_no_line_comment :
    (∀ (lineNumber : Nat) (line : List Char), allLineMarkersQuoted line = true →
      lineCommentOf lineNumber line = []) ∧
    extract_comments "let s = \"// not a comment\";" = some [] := by
  constructor
  · intro lineNumber line hall
    cases hfp : findPat ['/', '/'] line with
    | none => simp [lineCommentOf, hfp]
    | some p =>
      have hpre := findPat_isPrefix ['/', '/'] line p hfp
      have hb := findPat_some_bound ['/', '/'] line p hfp
      simp only [List.length_cons, List.length_nil] at hb
      have hplen : p < line.length := by omega
      simp only [allLineMarkersQuoted, List.all_eq_true] at hall
      have hp := hall p (List.mem_range.mpr hplen)
      rw [hpre] at hp
      simp only [Bool.not_true, Bool.false_or] at hp
      simp [lineCommentOf, hfp, hp]
  · rw [extract_comments_eval]
    decide

theorem C9_witness : lineCommentOf 1 "let s = \"// not a comment\";".data = [] :=
  C9_quoted_markers_no_line_comment.1 1 "let s = \"// not a comment\";".data (by decide)

/-- C10: every comment produced by extract_comments has zero start and end
offsets, equal start and end lines, and a start column strictly below its end
column, hence an end position lexicographically at or after its start. -/
theorem C10_span_wellformed (source : String) (cs : List Comment)
    (h : extract_comments source = some cs) :
    ∀ c ∈ cs, c.span.start_offset = 0 ∧ c.span.end_offset = 0 ∧
      c.span.start_line = c.span.end_line ∧ c.span.start_column < c.span.end_column ∧
      (c.span.start_line < c.span.end_line ∨
        (c.span.start_line = c.span.end_line ∧ c.span.start_column ≤ c.span.end_column)) := by
  intro c hc
  rw [extract_comments_eval] at h
  obtain ⟨h1, h2, h3, h4, _⟩ := extractLinesF_mem (rustLines source.data) 0 cs h c hc
  exact ⟨h1, h2, h3, h4, Or.inr ⟨h3, by omega⟩⟩

theorem C10_witness :
    (⟨"hi", ⟨0, 0, 1, 0, 1, 5⟩, CommentKind.line⟩ : Comment).span.start_offset = 0 ∧
    (⟨"hi", ⟨0, 0, 1, 0, 1, 5⟩, CommentKind.line⟩ : Comment).span.end_offset = 0 ∧
    (⟨"hi", ⟨0, 0, 1, 0, 1, 5⟩, CommentKind.line⟩ : Comment).span.start_line =
      (⟨"hi", ⟨0, 0, 1, 0, 1, 5⟩, CommentKind.line⟩ : Comment).span.end_line ∧
    (⟨"hi", ⟨0, 0, 1, 0, 1, 5⟩, CommentKind.line⟩ : Comment).span.start_column <
      (⟨"hi", ⟨0, 0, 1, 0, 1, 5⟩, CommentKind.line⟩ : Comment).span.end_column ∧
    ((⟨"hi", ⟨0, 0, 1, 0, 1, 5⟩, CommentKind.line⟩ : Comment).span.start_line <
      (⟨"hi", ⟨0, 0, 1, 0, 1, 5⟩, CommentKind.line⟩ : Comment).span.end_line ∨
      ((⟨"hi", ⟨0, 0, 1, 0, 1, 5⟩, CommentKind.line⟩ : Comment).span.start_line =
        (⟨"hi", ⟨0, 0, 1, 0, 1, 5⟩, CommentKind.line⟩ : Comment).span.end_line ∧
       (⟨"hi", ⟨0, 0, 1, 0, 1, 5⟩, CommentKind.line⟩ : Comment).span.start_column ≤
        (⟨"hi", ⟨0, 0, 1, 0, 1, 5⟩, CommentKind.line⟩ : Comment).span.end_column)) := by
  refine C10_span_wellformed "// hi" [⟨"hi", ⟨0, 0, 1, 0, 1, 5⟩, CommentKind.line⟩] ?_
    ⟨"hi", ⟨0, 0, 1, 0, 1, 5⟩, CommentKind.line⟩ (List.mem_singleton.mpr rfl)
  rw [extract_comments_eval]
  decide

/-- C2: in the map built by associate_comments_with_nodes every comment is
stored under at most one node identifier: membership in the lists of two keys
forces the keys to be equal. -/
theorem C2_no_double_claim (comments : List Comment) (node_spans : List (String × SpanInfo))
    (c : Comment) (k1 k2 : String) (l1 l2 : List Comment)
    (h1 : mapGet (associate_comments_with_nodes comments node_spans) k1 = some l1)
    (hc1 : c ∈ l1)
    (h2 : mapGet (associate_comments_with_nodes comments node_spans) k2 = some l2)
    (hc2 : c ∈ l2) : k1 = k2 := by
  have e1 := associate_mem_claimed node_spans comments k1 l1 h1 c hc1
  have e2 := associate_mem_claimed node_spans comments k2 l2 h2 c hc2
  rw [e1] at e2
  exact Option.some.inj e2

theorem C2_witness : ("item_0_block" : String) = "item_0_block" :=
  C2_no_double_claim
    [⟨"in", ⟨0, 0, 5, 2, 5, 8⟩, CommentKind.line⟩]
    [("item_0", ⟨0, 0, 2, 3, 2, 6⟩), ("item_0_block", ⟨0, 0, 4, 9, 8, 10⟩)]
    ⟨"in", ⟨0, 0, 5, 2, 5, 8⟩, CommentKind.line⟩
    "item_0_block" "item_0_block"
    [⟨"in", ⟨0, 0, 5, 2, 5, 8⟩, CommentKind.line⟩]
    [⟨"in", ⟨0, 0, 5, 2, 5, 8⟩, CommentKind.line⟩]
    (by decide) (by decide) (by decide) (by decide)

/-- C4: a comment matches a block node exactly when it lies strictly between
the block's start and end lines, or on the start line strictly after the
start column, or on the end line strictly before the end column; and because
block nodes are scanned before declaration nodes, whenever some block node
contains the comment the chosen node is a block identifier, never a
declaration identifier. -/
theorem C4_block_containment (c : Comment) (n : SpanInfo) (spans : List (String × SpanInfo)) :
    (is_comment_strictly_inside_node c n = true ↔
      ((n.start_line < c.span.start_line ∧ c.span.start_line < n.end_line) ∨
       (c.span.start_line = n.start_line ∧ n.start_column < c.span.start_column) ∨
       (c.span.start_line = n.end_line ∧ c.span.start_column < n.end_column))) ∧
    ((∃ p ∈ spans, endsWithBlock p.1 = true ∧ is_comment_strictly_inside_node c p.2 = true) →
      ∃ node_id, find_best_node_for_comment c spans = some node_id ∧
        endsWithBlock node_id = true) := by
  constructor
  · simp only [is_comment_strictly_inside_node]
    split_ifs with hc1 hc2 hc3 <;> simp <;> omega
  · rintro ⟨p, hpmem, hpb, hpin⟩
    have hsome : (spans.find?
        (fun q => endsWithBlock q.1 && is_comment_strictly_inside_node c q.2)).isSome := by
      rw [List.find?_isSome]
      exact ⟨p, hpmem, by simp [hpb, hpin]⟩
    obtain ⟨q, hq⟩ := Option.isSome_iff_exists.mp hsome
    have hqprop := List.find?_some hq
    rw [Bool.and_eq_true] at hqprop
    refine ⟨q.1, ?_, hqprop.1⟩
    simp [find_best_node_for_comment, hq]

theorem C4_witness :
    ∃ node_id,
      find_best_node_for_comment ⟨"in", ⟨0, 0, 5, 2, 5, 8⟩, CommentKind.line⟩
        [("item_0", ⟨0, 0, 2, 3, 2, 6⟩), ("item_0_block", ⟨0, 0, 4, 9, 8, 10⟩)] = some node_id ∧
      endsWithBlock node_id = true :=
  (C4_block_containment ⟨"in", ⟨0, 0, 5, 2, 5, 8⟩, CommentKind.line⟩ ⟨0, 0, 4, 9, 8, 10⟩
      [("item_0", ⟨0, 0, 2, 3, 2, 6⟩), ("item_0_block", ⟨0, 0, 4, 9, 8, 10⟩)]).2
    ⟨("item_0_block", ⟨0, 0, 4, 9, 8, 10⟩), by decide, by decide, by decide⟩

/-- C5 counterexample: a two-item file in which the first fn sits entirely on
line 1 and the second fn is declared on line 1 with its own block opening on
line 3.  The comment on line 2 lies strictly between the second declaration's
line (1) and that declaration's own block's start line (3), so the claim says
it matches item_1; but the code consults the first collected block whose
start line is at least the declaration's start line, which is item_0_block on
line 1, so the code reports no match and the comment is claimed by nobody. -/
theorem C5_counterexample :
    is_comment_on_function_declaration_line
      ⟨"trailing", ⟨0, 0, 2, 0, 2, 11⟩, CommentKind.line⟩ ⟨0, 0, 1, 13, 1, 14⟩
      (collectFileSpans ⟨[Item.Fn (some ⟨0, 0, 1, 3, 1, 4⟩) [] ⟨some ⟨0, 0, 1, 7, 1, 9⟩, []⟩,
        Item.Fn (some ⟨0, 0, 1, 13, 1, 14⟩) [] ⟨some ⟨0, 0, 3, 0, 4, 1⟩, []⟩]⟩) = false ∧
    find_best_node_for_comment ⟨"trailing", ⟨0, 0, 2, 0, 2, 11⟩, CommentKind.line⟩
      (collectFileSpans ⟨[Item.Fn (some ⟨0, 0, 1, 3, 1, 4⟩) [] ⟨some ⟨0, 0, 1, 7, 1, 9⟩, []⟩,
        Item.Fn (some ⟨0, 0, 1, 13, 1, 14⟩) [] ⟨some ⟨0, 0, 3, 0, 4, 1⟩, []⟩]⟩) = none ∧
    (collectFileSpans ⟨[Item.Fn (some ⟨0, 0, 1, 3, 1, 4⟩) [] ⟨some ⟨0, 0, 1, 7, 1, 9⟩, []⟩,
        Item.Fn (some ⟨0, 0, 1, 13, 1, 14⟩) [] ⟨some ⟨0, 0, 3, 0, 4, 1⟩, []⟩]⟩).find?
      (fun p => p.1 = "item_1_block") = some ("item_1_block", ⟨0, 0, 3, 0, 4, 1⟩) ∧
    (⟨0, 0, 1, 13, 1, 14⟩ : SpanInfo).start_line <
      (⟨0, 0, 2, 0, 2, 11⟩ : SpanInfo).start_line ∧
    (⟨0, 0, 2, 0, 2, 11⟩ : SpanInfo).start_line <
      (⟨0, 0, 3, 0, 4, 1⟩ : SpanInfo).start_line := by
  refine ⟨by decide, by decide, by decide, by decide, by decide⟩

/-- C5 amended: a comment not claimed by any block node matches a declaration
node exactly when it is on the declaration's start line strictly after the
declaration's end column, or when it lies on a line strictly between the
declaration's line and the start line of the first collected block node whose
start line is at least the declaration's start line — which is usually, but
not necessarily, that declaration's own body block; and the spec's same-line
example does associate to item_0. -/
theorem C5_declaration_match (c : Comment) (fn_span : SpanInfo)
    (all_spans : List (String × SpanInfo)) :
    (is_comment_on_function_declaration_line c fn_span all_spans = true ↔
      ((c.span.start_line = fn_span.start_line ∧ fn_span.end_column < c.span.start_column) ∨
       (∃ p, all_spans.find?
          (fun q => endsWithBlock q.1 && decide (fn_span.start_line ≤ q.2.start_line)) = some p ∧
        fn_span.start_line < c.span.start_line ∧ c.span.start_line < p.2.start_line))) ∧
    find_best_node_for_comment ⟨"note", ⟨0, 0, 1, 7, 1, 14⟩, CommentKind.line⟩
      [("item_0", ⟨0, 0, 1, 3, 1, 4⟩), ("item_0_block", ⟨0, 0, 2, 0, 3, 1⟩)] = some "item_0" := by
  refine ⟨?_, by decide⟩
  simp only [is_comment_on_function_declaration_line]
  by_cases hsame : c.span.start_line = fn_span.start_line
  · rw [if_pos hsame]
    constructor
    · intro h
      exact Or.inl ⟨hsame, of_decide_eq_true h⟩
    · rintro (⟨_, h⟩ | ⟨p, hp, hlt, _⟩)
      · exact decide_eq_true h
      · exfalso
        omega
  · rw [if_neg hsame]
    cases hfind : all_spans.find?
        (fun q => endsWithBlock q.1 && decide (fn_span.start_line ≤ q.2.start_line)) with
    | none =>
      constructor
      · intro h
        exact absurd h Bool.false_ne_true
      · rintro (⟨h, _⟩ | ⟨p, hp, _⟩)
        · exact absurd h hsame
        · cases hp
    | some p =>
      constructor
      · intro h
        have hlt := of_decide_eq_true h
        exact Or.inr ⟨p, rfl, hlt.1, hlt.2⟩
      · rintro (⟨h, _⟩ | ⟨q, hq, h1, h2⟩)
        · exact absurd h hsame
        · cases hq
          exact decide_eq_true ⟨h1, h2⟩

/-- C1 counterexample: one extracted comment that no node claims simply
vanishes: after association and application the file contains no comment at
all, and there is no document-root residual list to receive it (the File type
has no such field and apply_comment_associations appends to none), so the
union of per-node lists plus any residual cannot equal the extracted set. -/
theorem C1_counterexample :
    commentsInFile (apply_comment_associations
      ⟨[Item.Fn (some ⟨0, 0, 2, 3, 2, 6⟩) [] ⟨some ⟨0, 0, 4, 9, 8, 10⟩, []⟩]⟩
      (associate_comments_with_nodes [⟨"orphan", ⟨0, 0, 100, 0, 100, 9⟩, CommentKind.line⟩]
        (collectFileSpans
          ⟨[Item.Fn (some ⟨0, 0, 2, 3, 2, 6⟩) [] ⟨some ⟨0, 0, 4, 9, 8, 10⟩, []⟩]⟩))) = [] ∧
    ([⟨"orphan", ⟨0, 0, 100, 0, 100, 9⟩, CommentKind.line⟩] : List Comment) ≠ [] := by
  exact ⟨by decide, by decide⟩

/-- C1 amended: a comment that no node claims is silently discarded rather
than retained: after association and application it appears in no per-node
comment list of the file, and the code keeps no document-root residual list,
so the comments surviving in the file are only the claimed ones. -/
theorem C1_unclaimed_comment_dropped (file : File) (comments : List Comment) (c : Comment)
    (hunclaimed : find_best_node_for_comment c (collectFileSpans file) = none)
    (hfresh : c ∉ commentsInFile file) :
    c ∉ commentsInFile (apply_comment_associations file
      (associate_comments_with_nodes comments (collectFileSpans file))) := by
  intro hmem
  rcases apply_comment_associations_mem file
      (associate_comments_with_nodes comments (collectFileSpans file)) c hmem with
    h1 | ⟨key, l, hget, hcl⟩
  · exact hfresh h1
  · have := associate_mem_claimed (collectFileSpans file) comments key l hget c hcl
    rw [hunclaimed] at this
    cases this

theorem C1_witness :
    ⟨"orphan", ⟨0, 0, 100, 0, 100, 9⟩, CommentKind.line⟩ ∉
      commentsInFile (apply_comment_associations
        ⟨[Item.Fn (some ⟨0, 0, 2, 3, 2, 6⟩) [] ⟨some ⟨0, 0, 4, 9, 8, 10⟩, []⟩]⟩
        (associate_comments_with_nodes
          [⟨"orphan", ⟨0, 0, 100, 0, 100, 9⟩, CommentKind.line⟩]
          (collectFileSpans
            ⟨[Item.Fn (some ⟨0, 0, 2, 3, 2, 6⟩) [] ⟨some ⟨0, 0, 4, 9, 8, 10⟩, []⟩]⟩))) :=
  C1_unclaimed_comment_dropped
    ⟨[Item.Fn (some ⟨0, 0, 2, 3, 2, 6⟩) [] ⟨some ⟨0, 0, 4, 9, 8, 10⟩, []⟩]⟩
    [⟨"orphan", ⟨0, 0, 100, 0, 100, 9⟩, CommentKind.line⟩]
    ⟨"orphan", ⟨0, 0, 100, 0, 100, 9⟩, CommentKind.line⟩
    (by decide) (by decide)

end SynSerde
